import Mathlib

set_option maxRecDepth 4000

/-!
# Verification of `string-utils` (ZakaHaceCosas/string-utils)

Shallow embedding of `src/mod.ts`.  JS strings are modelled as lists of
Unicode code points (`List Nat`); `cp` converts a Lean string literal to
this representation for concrete inputs.  The Unicode data the engine
consults (NFD decompositions, simple lowercase mappings) is modelled by
explicit tables restricted to ASCII and Latin-1, which covers every
character the repository's code, tests and spec mention.
-/

namespace StringUtils

/-- Code points of a Lean string literal, used to write concrete inputs. -/
def cp (s : String) : List Nat := s.data.map Char.toNat

/-- The whitespace class of the JS regex `\s` and of `String.trim`:
space, tab, LF, VT, FF, CR, NBSP, and the Unicode space separators. -/
def jsWs (c : Nat) : Bool :=
  decide (c = 0x20 ∨ (0x9 ≤ c ∧ c ≤ 0xD) ∨ c = 0xA0 ∨ c = 0x1680 ∨
    (0x2000 ≤ c ∧ c ≤ 0x200A) ∨ c = 0x2028 ∨ c = 0x2029 ∨ c = 0x202F ∨
    c = 0x205F ∨ c = 0x3000 ∨ c = 0xFEFF)

/-- The combining diacritical marks U+0300 to U+036F removed by the
accent-stripping replace of `normalize`. -/
def isMark (c : Nat) : Bool := decide (0x300 ≤ c ∧ c ≤ 0x36F)

/-- Canonical (NFD) decompositions of the precomposed Latin-1 letters:
the model of the Unicode decomposition table behind `.normalize("NFD")`.
Letters without a canonical decomposition (Æ Ð Ø Þ ß æ ð ø þ and all of
ASCII) are deliberately absent. -/
def nfdTable : List (Nat × List Nat) :=
  [(0xC0, [0x41, 0x300]), (0xC1, [0x41, 0x301]), (0xC2, [0x41, 0x302]),
   (0xC3, [0x41, 0x303]), (0xC4, [0x41, 0x308]), (0xC5, [0x41, 0x30A]),
   (0xC7, [0x43, 0x327]),
   (0xC8, [0x45, 0x300]), (0xC9, [0x45, 0x301]), (0xCA, [0x45, 0x302]),
   (0xCB, [0x45, 0x308]),
   (0xCC, [0x49, 0x300]), (0xCD, [0x49, 0x301]), (0xCE, [0x49, 0x302]),
   (0xCF, [0x49, 0x308]),
   (0xD1, [0x4E, 0x303]),
   (0xD2, [0x4F, 0x300]), (0xD3, [0x4F, 0x301]), (0xD4, [0x4F, 0x302]),
   (0xD5, [0x4F, 0x303]), (0xD6, [0x4F, 0x308]),
   (0xD9, [0x55, 0x300]), (0xDA, [0x55, 0x301]), (0xDB, [0x55, 0x302]),
   (0xDC, [0x55, 0x308]),
   (0xDD, [0x59, 0x301]),
   (0xE0, [0x61, 0x300]), (0xE1, [0x61, 0x301]), (0xE2, [0x61, 0x302]),
   (0xE3, [0x61, 0x303]), (0xE4, [0x61, 0x308]), (0xE5, [0x61, 0x30A]),
   (0xE7, [0x63, 0x327]),
   (0xE8, [0x65, 0x300]), (0xE9, [0x65, 0x301]), (0xEA, [0x65, 0x302]),
   (0xEB, [0x65, 0x308]),
   (0xEC, [0x69, 0x300]), (0xED, [0x69, 0x301]), (0xEE, [0x69, 0x302]),
   (0xEF, [0x69, 0x308]),
   (0xF1, [0x6E, 0x303]),
   (0xF2, [0x6F, 0x300]), (0xF3, [0x6F, 0x301]), (0xF4, [0x6F, 0x302]),
   (0xF5, [0x6F, 0x303]), (0xF6, [0x6F, 0x308]),
   (0xF9, [0x75, 0x300]), (0xFA, [0x75, 0x301]), (0xFB, [0x75, 0x302]),
   (0xFC, [0x75, 0x308]),
   (0xFD, [0x79, 0x301]), (0xFF, [0x79, 0x308])]

/-- Decomposition of one code point under NFD (table lookup, identity otherwise). -/
def nfdChar (c : Nat) : List Nat :=
  match List.lookup c nfdTable with
  | some l => l
  | none => [c]

/-- Model of `str.normalize("NFD")`. -/
def nfd (l : List Nat) : List Nat := (l.map nfdChar).flatten

/-- The accent-removing replace: delete the combining marks. -/
def removeMarks (l : List Nat) : List Nat := l.filter (fun c => !isMark c)

/-- The whitespace-collapsing replace of `normalize` (regex `\s+`, replaced
by a single space): each maximal whitespace run becomes one 0x20. -/
def collapseWs : List Nat → List Nat
  | [] => []
  | [c] => if jsWs c then [0x20] else [c]
  | c :: d :: rest =>
    if jsWs c && jsWs d then collapseWs (d :: rest)
    else (if jsWs c then 0x20 else c) :: collapseWs (d :: rest)

/-- Model of `.trim()`. -/
def trimWs (l : List Nat) : List Nat :=
  ((l.dropWhile jsWs).reverse.dropWhile jsWs).reverse

/-- The simple lowercase mapping of `.toLowerCase()`, modelled on
ASCII `A`–`Z` and the Latin-1 uppercase range `À`–`Þ` (U+00D7 `×` has no
case); identity elsewhere. -/
def toLowerChar (c : Nat) : Nat :=
  if 0x41 ≤ c ∧ c ≤ 0x5A then c + 0x20
  else if 0xC0 ≤ c ∧ c ≤ 0xDE ∧ c ≠ 0xD7 then c + 0x20
  else c

/-- Model of `.toLowerCase()`. -/
def toLowerStr (l : List Nat) : List Nat := l.map toLowerChar

/-- Membership in the JS `\w` class (ASCII letters, digits, underscore). -/
def wordChar (c : Nat) : Bool :=
  decide ((0x41 ≤ c ∧ c ≤ 0x5A) ∨ (0x61 ≤ c ∧ c ≤ 0x7A) ∨
    (0x30 ≤ c ∧ c ≤ 0x39) ∨ c = 0x5F)

/-- Parameter bytes accepted by the regex of `stripCliColors`: the class
of digits, semicolon and question mark. -/
def paramByte (c : Nat) : Bool :=
  decide ((0x30 ≤ c ∧ c ≤ 0x39) ∨ c = 0x3B ∨ c = 0x3F)

/-- Intermediate bytes: the class from 0x20 to 0x2F. -/
def interByte (c : Nat) : Bool := decide (0x20 ≤ c ∧ c ≤ 0x2F)

/-- Final bytes: the class from 0x40 to 0x7E. -/
def finalByte (c : Nat) : Bool := decide (0x40 ≤ c ∧ c ≤ 0x7E)

/-- After `ESC [`, try to consume parameter bytes, then intermediate
bytes, then one final byte; on success return the remaining input. -/
def csiTail (l : List Nat) : Option (List Nat) :=
  match (l.dropWhile paramByte).dropWhile interByte with
  | c :: rest => if finalByte c then some rest else none
  | [] => none

theorem csiTail_length {l r : List Nat} (h : csiTail l = some r) :
    r.length < l.length := by
  unfold csiTail at h
  rcases hm : (l.dropWhile paramByte).dropWhile interByte with _ | ⟨c, rest⟩ <;>
    rw [hm] at h
  · exact absurd h (by simp)
  · have h1 : rest.length + 1 ≤ l.length := by
      have hs : (l.dropWhile paramByte).dropWhile interByte <:+ l :=
        (List.dropWhile_suffix interByte).trans (List.dropWhile_suffix paramByte)
      have hle := hs.length_le
      rw [hm] at hle
      simpa using hle
    have h2 : r = rest := by
      by_cases hf : finalByte c = true
      · simp [hf] at h; exact h.symm
      · simp [hf] at h
    subst h2
    omega

/-- One scanning step of the global replace in `stripCliColors`: at an
ESC followed by `[`, delete a full control sequence when one parses;
otherwise emit the character and move on.  The fuel argument (instantiated
with the input length, which the recursion never exceeds) makes the
recursion structural; matches never overlap and only ESC can start one,
so this scan is the behavior of the JS global regex replace. -/
def stripGo : Nat → List Nat → List Nat
  | _, [] => []
  | 0, l => l
  | fuel + 1, c :: rest =>
    if c = 0x1B ∧ rest.head? = some 0x5B then
      match csiTail rest.tail with
      | some rest3 => stripGo fuel rest3
      | none => c :: stripGo fuel rest
    else c :: stripGo fuel rest

/-- Model of `StringUtils.stripCliColors`. -/
def stripCliColors (l : List Nat) : List Nat := stripGo l.length l

/-- Steps of `normalize` shared by all flag settings: NFD, remove
combining marks, collapse whitespace, trim, lowercase. -/
def normalizeBase (l : List Nat) : List Nat :=
  toLowerStr (trimWs (collapseWs (removeMarks (nfd l))))

/-- Model of `StringUtils.normalize(str, strict?, stripCliColors?)`.  In
the source the strict replacement (drop whitespace, non-word characters
and underscore) runs after `.toLowerCase()`, and the colour stripping is
applied last. -/
def normalizeFull (l : List Nat) (strict stripColors : Bool) : List Nat :=
  let n :=
    if strict then
      (normalizeBase l).filter (fun c => !(jsWs c || !wordChar c || c == 0x5F))
    else normalizeBase l
  if stripColors then stripCliColors n else n

/-- `normalize` with both optional flags left out (they default to falsy). -/
def normalize (l : List Nat) : List Nat := normalizeFull l false false

example : normalize (cp "              heLLo mY    fAnTÁsTiC    AmigO   ") =
    cp "hello my fantastic amigo" := by decide

example : normalizeFull (cp "              123_heLLo mY    fAnTÁsTiC    AmigO   ") true false =
    cp "123hellomyfantasticamigo" := by decide

example : stripCliColors (cp "\x1b[31mRed text\x1b[0m") = cp "Red text" := by decide

example : stripCliColors (cp "\x1b[38;5;82m256-color text\x1b[0m") = cp "256-color text" := by
  decide

/-- The `UnknownString` input type of the library: `undefined`, `null`, or
a string (a non-string value would also fall in the first guard of
`validate`; those two alternatives already model every rejected shape). -/
inductive UnknownString where
  | undef : UnknownString
  | nullv : UnknownString
  | str : List Nat → UnknownString
deriving DecidableEq

/-- Model of `StringUtils.validate`: false for `undefined`, `null` and
non-strings, false when `normalize(str)` is empty, true otherwise. -/
def validate : UnknownString → Bool
  | .undef => false
  | .nullv => false
  | .str s => if normalize s = [] then false else true

/-- The string payloads of the entries of an `UnknownString` list that
pass `validate` (the TS code narrows the filtered entries to `string`). -/
def strOf : UnknownString → List Nat
  | .str s => s
  | _ => []

/-- Model of `StringUtils.normalizeArray`: keep the entries passing
`validate`, then map `normalize` over the survivors. -/
def normalizeArray (strArr : List UnknownString) : List (List Nat) :=
  (strArr.filter validate).map (fun v => normalize (strOf v))

/-- Lexicographic comparison of code-point lists: the model of the basic
collation `localeCompare` applies to two already-normalized strings. -/
def lexLe : List Nat → List Nat → Bool
  | [], _ => true
  | _ :: _, [] => false
  | a :: as, b :: bs => if a < b then true else if b < a then false else lexLe as bs

/-- The comparator of `sortAlphabetically`, as a relation:
`normalize(a).localeCompare(normalize(b)) <= 0`. -/
def sortLe (a b : List Nat) : Prop := lexLe (normalize a) (normalize b) = true

instance : DecidableRel sortLe := fun a b =>
  inferInstanceAs (Decidable (lexLe (normalize a) (normalize b) = true))

/-- Model of `StringUtils.sortAlphabetically`.  `toSorted` returns a new
sorted array and leaves the receiver untouched, so the call is modelled
as the pair (contents of the argument array after the call, returned
array). -/
def sortAlphabetically (strArr : List (List Nat)) :
    List (List Nat) × List (List Nat) :=
  (strArr, List.insertionSort sortLe strArr)

/-- Lowercase and remove whitespace: the preprocessing of each anagram
argument before sorting. -/
def anagramPrep (x : List Nat) : List Nat :=
  (toLowerStr x).filter (fun c => !jsWs c)

/-- Modelled from the spec: `isAnagram` appears in `src/tests/mod.ts` but
no implementation is present under `src/`.  Per §4.1 of the spec it is
true iff the lowercased, whitespace-stripped, sorted character sequences
of `a` and `b` are equal and `a` and `b` differ verbatim. -/
def isAnagram (a b : List Nat) : Bool :=
  decide (List.insertionSort (· ≤ ·) (anagramPrep a) =
    List.insertionSort (· ≤ ·) (anagramPrep b)) && decide (¬a = b)

example : isAnagram (cp "hi") (cp "ih") = true := by decide

example : isAnagram (cp "hi") (cp "hi") = false := by decide

/-- A table cell value: `string | number | unknown[]`.  Numbers are the
integers the repository uses; arrays cover the "unsupported composite"
shape of the spec. -/
inductive CellValue where
  | vstr : List Nat → CellValue
  | vnum : Int → CellValue
  | varr : List CellValue → CellValue

/-- Decimal digits of a natural number, as code points. -/
def natDigits (n : Nat) : List Nat := (Nat.repr n).data.map Char.toNat

/-- JS `Number.prototype.toString` on an integer value. -/
def intDigits (n : Int) : List Nat :=
  if n < 0 then 0x2D :: natDigits n.natAbs else natDigits n.toNat

mutual

/-- JS `.toString()` of a cell value; arrays stringify as their elements
joined by commas. -/
def cellToString : CellValue → List Nat
  | .vstr s => s
  | .vnum n => intDigits n
  | .varr l => cellsToString l

/-- JS `Array.prototype.toString`: elements joined by commas. -/
def cellsToString : List CellValue → List Nat
  | [] => []
  | [v] => cellToString v
  | v :: w :: rest => cellToString v ++ 0x2C :: cellsToString (w :: rest)

end

/-- JS truthiness of `row[header]`: `undefined`, the empty string and the
number 0 are falsy; every array is truthy. -/
def isTruthy : Option CellValue → Bool
  | none => false
  | some (.vstr s) => !(s = ([] : List Nat) : Bool)
  | some (.vnum n) => !(n = 0 : Bool)
  | some (.varr _) => true

/-- A record: ordered key/value pairs (JS object keys keep insertion
order, and `Object.keys` of the first record defines the columns). -/
def TRecord := List (List Nat × CellValue)

/-- `row[header]?.toString() ?? ""`. -/
def cellStrOf (row : TRecord) (h : List Nat) : List Nat :=
  match List.lookup h row with
  | some v => cellToString v
  | none => []

/-- The column headers: keys of the first record, in order. -/
def headersOf (rows : List TRecord) : List (List Nat) :=
  match rows with
  | [] => []
  | first :: _ => first.map (fun p => p.1)

/-- The per-column widths computed by `table`:
`Math.max(header.length, ...strArr.map(row => normalize(cell, false, true).length + 1))`. -/
def columnWidthsOf (rows : List TRecord) (headers : List (List Nat)) : List Nat :=
  headers.map (fun h =>
    (rows.map (fun row => (normalizeFull (cellStrOf row h) false true).length + 1)).foldl
      Nat.max h.length)

/-- `value.trim().padEnd(columnWidths[index] + diff)` where `diff`
compensates for the characters `normalize(value, false, true)` drops. -/
def fmtCell (widths : List Nat) (value : List Nat) (i : Nat) : List Nat :=
  let t := trimWs value
  let d := t.length - (normalizeFull value false true).length
  t ++ List.replicate (widths.getD i 0 + d - t.length) 0x20

/-- One border line: left glyph, dash runs of width `w + 2` joined by the
middle glyph, right glyph. -/
def createSeparator (widths : List Nat) (left mid right : List Nat) : List Nat :=
  left ++ List.intercalate mid (widths.map (fun w => List.replicate (w + 2) 0x2500)) ++ right

/-- The cell joiner `chars.y`. -/
def chY : List Nat := cp " │ "

/-- The message of the error thrown for an inconsistent row:
`Object.entries(row)` interpolates as the flattened key/value pairs
joined by commas, and `String(e)` on the caught `Error` prepends
`"Error: "`. -/
def errMsg (row : TRecord) : List Nat :=
  cp "Error: Unable to represent data. Row " ++
    List.intercalate [0x2C] (row.map (fun p => p.1 ++ 0x2C :: cellToString p.2)) ++
    cp " is not consistent with the rest of the table."

/-- The guard `!row[header] || !this.validate(row[header]?.toString() ?? "")`:
the cell is absent or falsy, or its stringified value fails `validate`. -/
def badCell (row : TRecord) (h : List Nat) : Bool :=
  !isTruthy (List.lookup h row) || !validate (UnknownString.str (cellStrOf row h))

/-- Format the cells of one data row against the header list, from column
index `i` on; the first absent, falsy or invalid cell throws the
row-inconsistency error (modelled in `Except`). -/
def rowCells (widths : List Nat) (row : TRecord) :
    List (List Nat) → Nat → Except (List Nat) (List (List Nat))
  | [], _ => Except.ok []
  | h :: hs, i =>
    if badCell row h then
      Except.error (errMsg row)
    else
      match rowCells widths row hs (i + 1) with
      | Except.error e => Except.error e
      | Except.ok rest => Except.ok (fmtCell widths (cellStrOf row h) i :: rest)

/-- Format all data rows in order; the first throwing row aborts the map. -/
def dataRowsExc (widths : List Nat) (headers : List (List Nat)) :
    List TRecord → Except (List Nat) (List (List Nat))
  | [] => Except.ok []
  | row :: rest =>
    match rowCells widths row headers 0 with
    | Except.error e => Except.error e
    | Except.ok cells =>
      match dataRowsExc widths headers rest with
      | Except.error e => Except.error e
      | Except.ok rs => Except.ok (List.intercalate chY cells :: rs)

/-- Model of `StringUtils.table`. -/
def table (strArr : List TRecord) : List Nat :=
  match strArr with
  | [] => cp "No data to display."
  | first :: _ =>
    let headers := first.map (fun p => p.1)
    let widths := columnWidthsOf strArr headers
    let top := createSeparator widths (cp "┌") (cp "┬") (cp "┐")
    let middle := createSeparator widths (cp "├") (cp "┼") (cp "┤")
    let bottom := createSeparator widths (cp "└") (cp "┴") (cp "┘")
    let headerRow := cp "│ " ++
      List.intercalate chY (headers.enum.map (fun p => fmtCell widths p.2 p.1)) ++ cp " │"
    match dataRowsExc widths headers strArr with
    | Except.error e => e
    | Except.ok rows =>
      List.intercalate [0x0A]
        ([top, headerRow, middle] ++ rows.map (fun r => cp "│ " ++ r ++ cp " │") ++ [bottom])

example :
    table [[(cp "Name", .vstr (cp "Zaka")), (cp "Age", .vnum 50), (cp "Country", .vstr (cp "Spain"))],
      [(cp "Name", .vstr (cp "Someone")), (cp "Age", .vnum 25), (cp "Country", .vstr (cp "Poland"))]] =
    cp "┌──────────┬─────┬─────────┐\n│ Name     │ Age │ Country │\n├──────────┼─────┼─────────┤\n│ Zaka     │ 50  │ Spain   │\n│ Someone  │ 25  │ Poland  │\n└──────────┴─────┴─────────┘" := by
  decide

example :
    table [[(cp "Key", .vstr (cp "Value")), (cp "Key2", .vstr (cp "Value 2"))],
      [(cp "Key", .vstr (cp "Value3")), (cp "Key2", .vstr (cp "Value4"))],
      [(cp "Key", .vstr (cp "Value5")), (cp "Key3", .vstr (cp "Value6"))]] =
    cp "Error: Unable to represent data. Row Key,Value5,Key3,Value6 is not consistent with the rest of the table." := by
  decide

/-- The column-width rule exactly as the claim words it: the maximum of
the header length and the escape-stripped length of the raw stringified
cell over all rows, plus one.  Written for comparison with
`columnWidthsOf`, which is what the code computes. -/
def specColumnWidths (rows : List TRecord) (headers : List (List Nat)) : List Nat :=
  headers.map (fun h =>
    Nat.max h.length
      ((rows.map (fun row => (stripCliColors (cellStrOf row h)).length)).foldl Nat.max 0) + 1)

/-! ## Properties of the comparator -/

theorem lexLe_cons_iff {x y : Nat} {xs ys : List Nat} :
    lexLe (x :: xs) (y :: ys) = true ↔ x < y ∨ (x = y ∧ lexLe xs ys = true) := by
  rcases Nat.lt_trichotomy x y with h | h | h
  · simp [lexLe, h]
  · subst h
    simp [lexLe, Nat.lt_irrefl]
  · have h1 : ¬x < y := Nat.lt_asymm h
    simp [lexLe, h1, h]
    omega

theorem lexLe_total (a b : List Nat) : lexLe a b = true ∨ lexLe b a = true := by
  induction a generalizing b with
  | nil => exact Or.inl rfl
  | cons x xs ih =>
    cases b with
    | nil => exact Or.inr rfl
    | cons y ys =>
      rcases Nat.lt_trichotomy x y with h | h | h
      · exact Or.inl (lexLe_cons_iff.2 (Or.inl h))
      · subst h
        rcases ih ys with h2 | h2
        · exact Or.inl (lexLe_cons_iff.2 (Or.inr ⟨rfl, h2⟩))
        · exact Or.inr (lexLe_cons_iff.2 (Or.inr ⟨rfl, h2⟩))
      · exact Or.inr (lexLe_cons_iff.2 (Or.inl h))

theorem lexLe_trans {a b c : List Nat} (h1 : lexLe a b = true) (h2 : lexLe b c = true) :
    lexLe a c = true := by
  induction a generalizing b c with
  | nil => rfl
  | cons x xs ih =>
    cases b with
    | nil => exact absurd h1 (by simp [lexLe])
    | cons y ys =>
      cases c with
      | nil => exact absurd h2 (by simp [lexLe])
      | cons z zs =>
        rcases lexLe_cons_iff.1 h1 with hx | ⟨hx, hx2⟩ <;>
          rcases lexLe_cons_iff.1 h2 with hy | ⟨hy, hy2⟩
        · exact lexLe_cons_iff.2 (Or.inl (Nat.lt_trans hx hy))
        · exact lexLe_cons_iff.2 (Or.inl (hy ▸ hx))
        · exact lexLe_cons_iff.2 (Or.inl (hx ▸ hy))
        · exact lexLe_cons_iff.2 (Or.inr ⟨hx.trans hy, ih hx2 hy2⟩)

instance : IsTotal (List Nat) sortLe :=
  ⟨fun a b => lexLe_total (normalize a) (normalize b)⟩

instance : IsTrans (List Nat) sortLe :=
  ⟨fun _ _ _ h1 h2 => lexLe_trans h1 h2⟩

/-! ## Claim theorems -/

/-- C5: `validate(v)` is true iff `v` is present (an actual string, not
`undefined` or `null`) and `normalize(v)` is non-empty; in particular it
rejects the absent values, `""` and `"   "`, and accepts `"x"`. -/
theorem validate_present_normalized_nonempty :
    (∀ v, validate v = true ↔ ∃ s, v = UnknownString.str s ∧ normalize s ≠ []) ∧
    validate UnknownString.undef = false ∧
    validate UnknownString.nullv = false ∧
    validate (UnknownString.str []) = false ∧
    validate (UnknownString.str (cp "   ")) = false ∧
    validate (UnknownString.str (cp "x")) = true := by
  refine ⟨?_, by decide, by decide, by decide, by decide, by decide⟩
  intro v
  cases v with
  | undef => simp [validate]
  | nullv => simp [validate]
  | str s =>
    by_cases h : normalize s = []
    · simp [validate, h]
    · simp [validate, h]

theorem validate_present_normalized_nonempty_witness :
    validate (UnknownString.str (cp "x")) = true :=
  (validate_present_normalized_nonempty.1 (UnknownString.str (cp "x"))).mpr
    ⟨cp "x", rfl, by decide⟩

/-- C10: every element of `normalizeArray`'s result is a non-empty
string, because each survivor passed `validate` and `validate` demands a
non-empty normalization. -/
theorem normalizeArray_elems_nonempty (arr : List UnknownString) (x : List Nat)
    (hx : x ∈ normalizeArray arr) : x ≠ [] := by
  unfold normalizeArray at hx
  rcases List.mem_map.1 hx with ⟨v, hv, rfl⟩
  have hval : validate v = true := List.of_mem_filter hv
  cases v with
  | undef => exact absurd hval (by decide)
  | nullv => exact absurd hval (by decide)
  | str s =>
    by_cases h : normalize s = []
    · rw [validate, if_pos h] at hval
      exact absurd hval (by decide)
    · simpa [strOf] using h

theorem normalizeArray_elems_nonempty_witness : cp "hi" ≠ ([] : List Nat) :=
  normalizeArray_elems_nonempty [UnknownString.str (cp "hi")] (cp "hi") (by decide)

/-- C8 (spec-modelled, the source ships only tests for `isAnagram`): a
string is never an anagram of itself, and two strings whose lowercased,
whitespace-stripped character sequences are permutations of each other
while differing verbatim are anagrams. -/
theorem isAnagram_irrefl_and_perm (a b : List Nat) :
    isAnagram a a = false ∧
    (List.Perm (anagramPrep a) (anagramPrep b) → a ≠ b → isAnagram a b = true) := by
  constructor
  · simp [isAnagram]
  · intro hp hne
    have hperm : List.Perm (List.insertionSort (· ≤ ·) (anagramPrep a))
        (List.insertionSort (· ≤ ·) (anagramPrep b)) :=
      ((List.perm_insertionSort _ _).trans hp).trans (List.perm_insertionSort _ _).symm
    have hs : List.insertionSort (· ≤ ·) (anagramPrep a) =
        List.insertionSort (· ≤ ·) (anagramPrep b) :=
      List.eq_of_perm_of_sorted hperm (List.sorted_insertionSort _ (anagramPrep a))
        (List.sorted_insertionSort _ (anagramPrep b))
    simp [isAnagram, hs, hne]

theorem isAnagram_irrefl_and_perm_witness : isAnagram (cp "hi") (cp "ih") = true :=
  (isAnagram_irrefl_and_perm (cp "hi") (cp "ih")).2 (by decide) (by decide)

/-- C9: `sortAlphabetically` does not mutate its argument (the array
holds the same elements in the same order after the call) and returns a
new array that is a sorted permutation of the input under the
normalize-then-compare ordering. -/
theorem sortAlphabetically_no_mutation (l : List (List Nat)) :
    (sortAlphabetically l).1 = l ∧
    List.Perm (sortAlphabetically l).2 l ∧
    List.Sorted sortLe (sortAlphabetically l).2 :=
  ⟨rfl, List.perm_insertionSort _ _, List.sorted_insertionSort _ _⟩

/-- C7 counterexample: `normalize("ø", strict)` is the empty string, so
the non-ASCII letter ø — which survives accent folding because it has no
decomposition — is removed by strict mode rather than preserved as the
claim states. -/
theorem strict_normalize_drops_nonascii_letter :
    normalizeFull (cp "ø") true false = [] ∧ cp "ø" ≠ [] := by decide

theorem toLowerChar_not_upper (c : Nat) :
    ¬(0x41 ≤ toLowerChar c ∧ toLowerChar c ≤ 0x5A) := by
  unfold toLowerChar
  split_ifs with h1 h2 <;> omega

/-- C7 amended: strict normalization keeps exactly the ASCII lowercase
letters and digits — every remaining code point that is not an ASCII
letter or digit is removed (non-ASCII letters included), spaces and
separators among them, so `"a-_-b"` collapses to `"ab"`. -/
theorem strict_normalize_ascii_alnum :
    (∀ (l : List Nat) (c : Nat), c ∈ normalizeFull l true false →
      (0x61 ≤ c ∧ c ≤ 0x7A) ∨ (0x30 ≤ c ∧ c ≤ 0x39)) ∧
    normalizeFull (cp "a-_-b") true false = cp "ab" := by
  constructor
  · intro l c hc
    simp only [normalizeFull, if_true, if_false] at hc
    have hmem := List.mem_filter.1 hc
    obtain ⟨hbase, hkeep⟩ := hmem
    have hword : wordChar c = true ∧ c ≠ 0x5F := by
      simp only [Bool.not_eq_eq_eq_not, Bool.not_true, Bool.or_eq_false_iff,
        Bool.not_eq_false] at hkeep
      refine ⟨hkeep.1.2, ?_⟩
      intro h
      subst h
      simpa using hkeep.2
    have hnup : ¬(0x41 ≤ c ∧ c ≤ 0x5A) := by
      obtain ⟨c2, hc2, rfl⟩ :
          ∃ c2, c2 ∈ trimWs (collapseWs (removeMarks (nfd l))) ∧ c = toLowerChar c2 := by
        simpa [normalizeBase, toLowerStr, eq_comm] using hbase
      exact toLowerChar_not_upper c2
    have hw := hword.1
    simp only [wordChar, decide_eq_true_eq] at hw
    rcases hw with h | h | h | h
    · exact absurd h hnup
    · exact Or.inl h
    · exact Or.inr h
    · exact absurd h hword.2
  · decide

theorem strict_normalize_ascii_alnum_witness :
    (0x61 ≤ 0x61 ∧ 0x61 ≤ 0x7A) ∨ (0x30 ≤ 0x61 ∧ 0x61 ≤ 0x39) :=
  strict_normalize_ascii_alnum.1 (cp "a1") 0x61 (by decide)

/-! ## Fold-max algebra used by the column-width theorem -/

theorem foldl_max_max (L : List Nat) (a b : Nat) :
    L.foldl Nat.max (Nat.max a b) = Nat.max a (L.foldl Nat.max b) := by
  induction L generalizing b with
  | nil => rfl
  | cons x L ih =>
    simp only [List.foldl_cons]
    have hassoc : Nat.max (Nat.max a b) x = Nat.max a (Nat.max b x) := max_assoc a b x
    rw [hassoc, ih]

theorem foldl_max_map_succ (L : List Nat) (a : Nat) :
    (L.map (fun x => x + 1)).foldl Nat.max (a + 1) = L.foldl Nat.max a + 1 := by
  induction L generalizing a with
  | nil => rfl
  | cons x L ih =>
    simp only [List.map_cons, List.foldl_cons]
    have hsucc : Nat.max (a + 1) (x + 1) = Nat.max a x + 1 := Nat.succ_max_succ a x
    rw [hsucc, ih]

/-- C1 counterexample: at `[{Country: "Spain"}]` the code computes width
7 where the claim's formula gives 8 (the `+ 1` is applied inside the
per-row maximum, so a long header gets no breathing room), and at
`[{X: "  a  b  "}]` the code computes 4 where the claim's formula gives 9
(cells are measured by `normalize(cell, false, true)`, not by the
escape-stripped raw string). -/
theorem columnWidths_breathing_room_refuted :
    columnWidthsOf [[(cp "Country", CellValue.vstr (cp "Spain"))]]
        (headersOf [[(cp "Country", CellValue.vstr (cp "Spain"))]]) = [7] ∧
    specColumnWidths [[(cp "Country", CellValue.vstr (cp "Spain"))]]
        (headersOf [[(cp "Country", CellValue.vstr (cp "Spain"))]]) = [8] ∧
    columnWidthsOf [[(cp "X", CellValue.vstr (cp "  a  b  "))]]
        (headersOf [[(cp "X", CellValue.vstr (cp "  a  b  "))]]) = [4] ∧
    specColumnWidths [[(cp "X", CellValue.vstr (cp "  a  b  "))]]
        (headersOf [[(cp "X", CellValue.vstr (cp "  a  b  "))]]) = [9] := by
  decide

/-- C1 amended: for a non-empty record list, column `i`'s width is the
maximum of the header length and of (one plus the largest measured cell
length of the column), where a cell is measured as the length of
`normalize(stringified value, strict off, stripCliColors on)` — the
lowercased, accent-folded, whitespace-collapsed, trimmed, escape-stripped
form — not the raw escape-stripped value. -/
theorem columnWidths_formula (rows : List TRecord) (headers : List (List Nat))
    (i : Nat) (hne : rows ≠ []) (hi : i < headers.length) :
    (columnWidthsOf rows headers).getD i 0 =
      Nat.max ((headers.getD i []).length)
        ((rows.map (fun row =>
          (normalizeFull (cellStrOf row (headers.getD i [])) false true).length)).foldl
            Nat.max 0 + 1) := by
  have hi2 : i < (columnWidthsOf rows headers).length := by
    simpa [columnWidthsOf] using hi
  rw [List.getD_eq_getElem _ _ hi2, List.getD_eq_getElem _ _ hi]
  unfold columnWidthsOf
  rw [List.getElem_map]
  have hcomp : rows.map (fun row =>
      (normalizeFull (cellStrOf row headers[i]) false true).length + 1) =
      (rows.map (fun row =>
        (normalizeFull (cellStrOf row headers[i]) false true).length)).map
          (fun x => x + 1) := by
    rw [List.map_map]
    rfl
  rw [hcomp]
  rcases hrows : rows.map (fun row =>
      (normalizeFull (cellStrOf row headers[i]) false true).length) with _ | ⟨y, Y⟩
  · exact absurd (List.map_eq_nil_iff.1 hrows) hne
  · have h1 : (headers[i].length : Nat) = Nat.max headers[i].length 0 :=
      (Nat.max_zero headers[i].length).symm
    calc ((y :: Y).map (fun x => x + 1)).foldl Nat.max headers[i].length
        = Nat.max headers[i].length
            (((y :: Y).map (fun x => x + 1)).foldl Nat.max 0) := by
          conv_lhs => rw [h1]
          exact foldl_max_max _ _ _
      _ = Nat.max headers[i].length ((y :: Y).foldl Nat.max 0 + 1) := by
          simp only [List.map_cons, List.foldl_cons, Nat.zero_max]
          rw [foldl_max_map_succ]

theorem columnWidths_formula_witness :
    (columnWidthsOf [[(cp "A", CellValue.vstr (cp "xy"))]] [cp "A"]).getD 0 0 =
      Nat.max ((([cp "A"] : List (List Nat)).getD 0 []).length)
        ((([[(cp "A", CellValue.vstr (cp "xy"))]] : List TRecord).map (fun row =>
          (normalizeFull (cellStrOf row (([cp "A"] : List (List Nat)).getD 0 [])) false
            true).length)).foldl Nat.max 0 + 1) :=
  columnWidths_formula [[(cp "A", CellValue.vstr (cp "xy"))]] [cp "A"] 0
    (List.cons_ne_nil _ _) (by decide)

/-! ## The escape-stripping scanner -/

/-- Parameter bytes of the claim's grammar: the full range 0x30 to 0x3F.
Written from the spec's words, to be compared with `paramByte`. -/
def specParamByte (c : Nat) : Bool := decide (0x30 ≤ c ∧ c ≤ 0x3F)

/-- The claim's control-sequence tail: spec-grammar parameter bytes, then
intermediate bytes, then one final byte. -/
def specCsiTail (l : List Nat) : Option (List Nat) :=
  match (l.dropWhile specParamByte).dropWhile interByte with
  | c :: rest => if finalByte c then some rest else none
  | [] => none

/-- The scan of `stripCliColors` with the claim's grammar substituted. -/
def specStripGo : Nat → List Nat → List Nat
  | _, [] => []
  | 0, l => l
  | fuel + 1, c :: rest =>
    if c = 0x1B ∧ rest.head? = some 0x5B then
      match specCsiTail rest.tail with
      | some rest3 => specStripGo fuel rest3
      | none => c :: specStripGo fuel rest
    else c :: specStripGo fuel rest

/-- Escape removal exactly as the claim words it: delete every substring
matching ESC, `[`, parameter bytes 0x30 to 0x3F, intermediate bytes,
final byte. -/
def specStripEscapes (l : List Nat) : List Nat := specStripGo l.length l

theorem stripGo_nil (f : Nat) : stripGo f [] = [] := by cases f <;> rfl

theorem stripGo_fuel_eq (f1 : Nat) : ∀ (f2 : Nat) (l : List Nat),
    l.length ≤ f1 → l.length ≤ f2 → stripGo f1 l = stripGo f2 l := by
  induction f1 with
  | zero =>
    intro f2 l h1 _
    have hl : l = [] := List.eq_nil_of_length_eq_zero (Nat.le_zero.1 h1)
    subst hl
    rw [stripGo_nil, stripGo_nil]
  | succ f1 ih =>
    intro f2 l h1 h2
    cases l with
    | nil => rw [stripGo_nil, stripGo_nil]
    | cons c rest =>
      cases f2 with
      | zero => simp at h2
      | succ f2 =>
        simp only [List.length_cons, Nat.add_le_add_iff_right] at h1 h2
        simp only [stripGo]
        by_cases hcond : c = 0x1B ∧ rest.head? = some 0x5B
        · rw [if_pos hcond, if_pos hcond]
          rcases h3 : csiTail rest.tail with _ | r3
          · simp only
            rw [ih f2 rest h1 h2]
          · simp only
            have hr3 : r3.length < rest.tail.length := csiTail_length h3
            have htail : rest.tail.length ≤ rest.length := by
              cases rest <;> simp
            exact ih f2 r3 (by omega) (by omega)
        · rw [if_neg hcond, if_neg hcond]
          rw [ih f2 rest h1 h2]

theorem stripGo_eq_stripCliColors (f : Nat) (l : List Nat) (h : l.length ≤ f) :
    stripGo f l = stripCliColors l :=
  stripGo_fuel_eq f l.length l h (Nat.le_refl _)

theorem interByte_not_param {c : Nat} (h : interByte c = true) : paramByte c = false := by
  simp only [interByte, decide_eq_true_eq] at h
  simp only [paramByte, decide_eq_false_iff_not]
  omega

theorem finalByte_not_param {c : Nat} (h : finalByte c = true) : paramByte c = false := by
  simp only [finalByte, decide_eq_true_eq] at h
  simp only [paramByte, decide_eq_false_iff_not]
  omega

theorem finalByte_not_inter {c : Nat} (h : finalByte c = true) : interByte c = false := by
  simp only [finalByte, decide_eq_true_eq] at h
  simp only [interByte, decide_eq_false_iff_not]
  omega

theorem dropWhile_append_of_all {p : Nat → Bool} {xs ys : List Nat}
    (h : ∀ c ∈ xs, p c = true) : (xs ++ ys).dropWhile p = ys.dropWhile p := by
  induction xs with
  | nil => rfl
  | cons x xs ih =>
    rw [List.cons_append, List.dropWhile_cons_of_pos (h x (List.mem_cons_self _ _))]
    exact ih (fun c hc => h c (List.mem_cons_of_mem _ hc))

theorem csiTail_wellformed (ps is : List Nat) (f : Nat) (rest : List Nat)
    (hps : ∀ c ∈ ps, paramByte c = true) (his : ∀ c ∈ is, interByte c = true)
    (hf : finalByte f = true) :
    csiTail (ps ++ (is ++ f :: rest)) = some rest := by
  unfold csiTail
  rw [dropWhile_append_of_all hps]
  have h1 : (is ++ f :: rest).dropWhile paramByte = is ++ f :: rest := by
    cases is with
    | nil =>
      simp only [List.nil_append]
      exact List.dropWhile_cons_of_neg (by simp [finalByte_not_param hf])
    | cons x xs =>
      rw [List.cons_append]
      exact List.dropWhile_cons_of_neg
        (by simp [interByte_not_param (his x (List.mem_cons_self _ _))])
  rw [h1, dropWhile_append_of_all his,
    List.dropWhile_cons_of_neg (by simp [finalByte_not_inter hf])]
  simp [hf]

/-- C6 counterexample: the code's regex accepts only digits, `;` and `?`
as parameter bytes, so `ESC [ < m` — a valid control sequence under the
claim's 0x30–0x3F parameter-byte grammar (`<` is 0x3C) — is left intact
by `stripCliColors` while the claim's grammar would erase it. -/
theorem stripCliColors_param_range_refuted :
    stripCliColors (cp "\x1b[<m") = cp "\x1b[<m" ∧
    specStripEscapes (cp "\x1b[<m") = [] ∧
    cp "\x1b[<m" ≠ [] := by decide

/-- C6 amended: `stripCliColors` removes exactly the control sequences
whose parameter bytes are digits, `;` or `?` (0x30–0x39, 0x3B, 0x3F):
any such sequence ESC `[` params intermediates final is deleted wherever
the scan meets it, strings without ESC are returned unchanged, and
`stripCliColors("\x1b[31mRed\x1b[0m") = "Red"`. -/
theorem stripCliColors_amended_grammar :
    (∀ (ps is : List Nat) (f : Nat) (rest : List Nat),
      (∀ c ∈ ps, paramByte c = true) → (∀ c ∈ is, interByte c = true) →
      finalByte f = true →
      stripCliColors (0x1B :: 0x5B :: (ps ++ (is ++ f :: rest))) = stripCliColors rest) ∧
    (∀ l : List Nat, (∀ c ∈ l, c ≠ 0x1B) → stripCliColors l = l) ∧
    stripCliColors (cp "\x1b[31mRed\x1b[0m") = cp "Red" := by
  refine ⟨?_, ?_, by decide⟩
  · intro ps is f rest hps his hf
    show stripGo (0x1B :: 0x5B :: (ps ++ (is ++ f :: rest))).length _ = _
    simp only [List.length_cons]
    simp only [stripGo]
    rw [if_pos (⟨trivial, rfl⟩ : True ∧
      (0x5B :: (ps ++ (is ++ f :: rest))).head? = some 0x5B)]
    simp only [List.tail_cons]
    rw [csiTail_wellformed ps is f rest hps his hf]
    simp only
    apply stripGo_eq_stripCliColors
    simp [List.length_append]
    omega
  · intro l hl
    show stripGo l.length l = l
    suffices hgen : ∀ (fuel : Nat) (m : List Nat), (∀ c ∈ m, c ≠ 0x1B) →
        stripGo fuel m = m by
      exact hgen l.length l hl
    intro fuel
    induction fuel with
    | zero => intro m _; cases m <;> rfl
    | succ fuel ih =>
      intro m hm
      cases m with
      | nil => rfl
      | cons c rest =>
        have hc : c ≠ 0x1B := hm c (List.mem_cons_self _ _)
        simp only [stripGo]
        rw [if_neg (by simp [hc])]
        rw [ih rest (fun x hx => hm x (List.mem_cons_of_mem _ hx))]

theorem stripCliColors_amended_grammar_witness :
    stripCliColors (0x1B :: 0x5B :: ([0x33, 0x31] ++ ([] ++ 0x6D :: cp "Red"))) =
      stripCliColors (cp "Red") :=
  stripCliColors_amended_grammar.1 [0x33, 0x31] [] 0x6D (cp "Red")
    (by decide) (by decide) (by decide)

/-! ## Error propagation through the table renderer -/

theorem rowCells_error_of_bad (widths : List Nat) (row : TRecord) :
    ∀ (headers : List (List Nat)) (i : Nat), (∃ h ∈ headers, badCell row h = true) →
    rowCells widths row headers i = Except.error (errMsg row) := by
  intro headers
  induction headers with
  | nil =>
    intro i hex
    rcases hex with ⟨h, hmem, _⟩
    simp at hmem
  | cons hd tl ih =>
    intro i hex
    by_cases hb : badCell row hd = true
    · simp [rowCells, hb]
    · have hex2 : ∃ h ∈ tl, badCell row h = true := by
        rcases hex with ⟨h, hmem, hbad⟩
        rcases List.mem_cons.1 hmem with rfl | hmem2
        · exact absurd hbad hb
        · exact ⟨h, hmem2, hbad⟩
      have hb2 : badCell row hd = false := by simpa using hb
      simp [rowCells, hb2, ih (i + 1) hex2]

theorem rowCells_ok_of_good (widths : List Nat) (row : TRecord) :
    ∀ (headers : List (List Nat)) (i : Nat), (∀ h ∈ headers, badCell row h = false) →
    ∃ cells, rowCells widths row headers i = Except.ok cells := by
  intro headers
  induction headers with
  | nil => intro i _; exact ⟨[], rfl⟩
  | cons hd tl ih =>
    intro i hall
    have hb : badCell row hd = false := hall hd (List.mem_cons_self _ _)
    rcases ih (i + 1) (fun h hm => hall h (List.mem_cons_of_mem _ hm)) with ⟨cells, hc⟩
    exact ⟨fmtCell widths (cellStrOf row hd) i :: cells, by simp [rowCells, hb, hc]⟩

theorem dataRows_error_of_bad (widths : List Nat) (headers : List (List Nat)) :
    ∀ rows : List TRecord, (∃ row ∈ rows, ∃ h ∈ headers, badCell row h = true) →
    ∃ r ∈ rows, (∃ h ∈ headers, badCell r h = true) ∧
      dataRowsExc widths headers rows = Except.error (errMsg r) := by
  intro rows
  induction rows with
  | nil =>
    rintro ⟨row, hmem, _⟩
    simp at hmem
  | cons row rest ih =>
    intro hex
    by_cases hrow : ∃ h ∈ headers, badCell row h = true
    · refine ⟨row, List.mem_cons_self _ _, hrow, ?_⟩
      simp [dataRowsExc, rowCells_error_of_bad widths row headers 0 hrow]
    · have hall : ∀ h ∈ headers, badCell row h = false := by
        intro h hm
        by_contra hc
        exact hrow ⟨h, hm, by simpa using hc⟩
      have hrest : ∃ r ∈ rest, ∃ h ∈ headers, badCell r h = true := by
        rcases hex with ⟨r, hrm, hrb⟩
        rcases List.mem_cons.1 hrm with rfl | hrm2
        · exact absurd hrb hrow
        · exact ⟨r, hrm2, hrb⟩
      rcases ih hrest with ⟨r, hr, hrb, hde⟩
      rcases rowCells_ok_of_good widths row headers 0 hall with ⟨cells, hcells⟩
      exact ⟨r, List.mem_cons_of_mem _ hr, hrb, by simp [dataRowsExc, hcells, hde]⟩

theorem table_error_of_bad (rows : List TRecord)
    (hbad : ∃ row ∈ rows, ∃ h ∈ headersOf rows, badCell row h = true) :
    ∃ r ∈ rows, (∃ h ∈ headersOf rows, badCell r h = true) ∧ table rows = errMsg r := by
  rcases rows with _ | ⟨first, rest⟩
  · rcases hbad with ⟨row, hm, _⟩
    simp at hm
  · have hh : headersOf (first :: rest) = first.map (fun p => p.1) := rfl
    rw [hh] at hbad ⊢
    rcases dataRows_error_of_bad
      (columnWidthsOf (first :: rest) (first.map (fun p => p.1)))
      (first.map (fun p => p.1)) (first :: rest) hbad with ⟨r, hr, hrb, hde⟩
    refine ⟨r, hr, hrb, ?_⟩
    simp only [table]
    rw [hde]

/-- C3: whenever some row has an absent, falsy or `validate`-failing cell
in one of the schema's columns, `table` returns (rather than raising)
the string `"Error: Unable to represent data. Row <entries> is not
consistent with the rest of the table."`, with `<entries>` the flattened
key/value pairs of an offending row. -/
theorem table_returns_error_string_on_bad_cell (rows : List TRecord)
    (hbad : ∃ row ∈ rows, ∃ h ∈ headersOf rows, badCell row h = true) :
    ∃ r ∈ rows, (∃ h ∈ headersOf rows, badCell r h = true) ∧ table rows = errMsg r :=
  table_error_of_bad rows hbad

theorem table_returns_error_string_on_bad_cell_witness :
    ∃ r ∈ ([[(cp "Key", CellValue.vstr (cp "Value")), (cp "Key2", CellValue.vstr (cp "Value 2"))],
      [(cp "Key", CellValue.vstr (cp "Value3")), (cp "Key2", CellValue.vstr (cp "Value4"))],
      [(cp "Key", CellValue.vstr (cp "Value5")), (cp "Key3", CellValue.vstr (cp "Value6"))]] :
        List TRecord),
      (∃ h ∈ headersOf [[(cp "Key", CellValue.vstr (cp "Value")), (cp "Key2", CellValue.vstr (cp "Value 2"))],
        [(cp "Key", CellValue.vstr (cp "Value3")), (cp "Key2", CellValue.vstr (cp "Value4"))],
        [(cp "Key", CellValue.vstr (cp "Value5")), (cp "Key3", CellValue.vstr (cp "Value6"))]],
        badCell r h = true) ∧
      table [[(cp "Key", CellValue.vstr (cp "Value")), (cp "Key2", CellValue.vstr (cp "Value 2"))],
        [(cp "Key", CellValue.vstr (cp "Value3")), (cp "Key2", CellValue.vstr (cp "Value4"))],
        [(cp "Key", CellValue.vstr (cp "Value5")), (cp "Key3", CellValue.vstr (cp "Value6"))]] = errMsg r :=
  table_returns_error_string_on_bad_cell _
    ⟨[(cp "Key", CellValue.vstr (cp "Value5")), (cp "Key3", CellValue.vstr (cp "Value6"))],
      List.mem_cons_of_mem _ (List.mem_cons_of_mem _ (List.mem_cons_self _ _)),
      cp "Key2", by decide, by decide⟩

/-- C2 counterexample: a second record carrying an extra key `B` beyond
the first record's key set renders a normal table — the key sets differ
as sets, yet no error is produced and no row is skipped, contradicting
the claimed hard error. -/
theorem table_extra_keys_render_refuted :
    table [[(cp "A", CellValue.vstr (cp "x"))],
      [(cp "A", CellValue.vstr (cp "y")), (cp "B", CellValue.vstr (cp "z"))]] =
      cp "┌────┐\n│ A  │\n├────┤\n│ x  │\n│ y  │\n└────┘" ∧
    ¬(cp "Error:" <+: table [[(cp "A", CellValue.vstr (cp "x"))],
      [(cp "A", CellValue.vstr (cp "y")), (cp "B", CellValue.vstr (cp "z"))]]) := by
  decide

/-- C2 amended: the renderer only checks the first record's keys against
each row: a record missing one of the schema keys aborts the whole
render with the consistency error, but a record with extra keys beyond
the first record's key set is not detected — its extra keys are ignored
and the table renders. -/
theorem table_error_on_missing_schema_key (rows : List TRecord)
    (hmiss : ∃ row ∈ rows, ∃ h ∈ headersOf rows, List.lookup h row = none) :
    ∃ r ∈ rows, table rows = errMsg r := by
  have hbad : ∃ row ∈ rows, ∃ h ∈ headersOf rows, badCell row h = true := by
    rcases hmiss with ⟨row, hm, h, hh, hlk⟩
    exact ⟨row, hm, h, hh, by simp [badCell, hlk, isTruthy]⟩
  rcases table_error_of_bad rows hbad with ⟨r, hr, _, ht⟩
  exact ⟨r, hr, ht⟩

theorem table_error_on_missing_schema_key_witness :
    ∃ r ∈ ([[(cp "A", CellValue.vstr (cp "x"))], [(cp "B", CellValue.vstr (cp "y"))]] :
        List TRecord),
      table [[(cp "A", CellValue.vstr (cp "x"))], [(cp "B", CellValue.vstr (cp "y"))]] =
        errMsg r :=
  table_error_on_missing_schema_key _
    ⟨[(cp "B", CellValue.vstr (cp "y"))],
      List.mem_cons_of_mem _ (List.mem_cons_self _ _), cp "A", by decide, by rfl⟩

/-! ## Idempotence of the normalizer -/

/-- A code point with no NFD decomposition. -/
def inert (c : Nat) : Bool := (List.lookup c nfdTable).isNone

theorem nfdChar_of_inert {c : Nat} (h : inert c = true) : nfdChar c = [c] := by
  unfold inert at h
  unfold nfdChar
  rcases hlk : List.lookup c nfdTable with _ | v
  · rfl
  · rw [hlk] at h
    simp at h

theorem inert_of_lt_xC0 {c : Nat} (h : c < 0xC0) : inert c = true := by
  unfold inert
  rcases hlk : List.lookup c nfdTable with _ | v
  · rfl
  · exfalso
    rcases List.lookup_eq_some_iff.1 hlk with ⟨l1, l2, heq, _⟩
    have hmem : (c, v) ∈ nfdTable := by
      rw [heq]
      exact List.mem_append_right _ (List.mem_cons_self _ _)
    have hge : ∀ p ∈ nfdTable, 0xC0 ≤ p.1 := by decide
    have := hge (c, v) hmem
    omega

theorem mem_removeMarks_nfd {l : List Nat} {c : Nat} (hc : c ∈ removeMarks (nfd l)) :
    inert c = true ∧ isMark c = false := by
  obtain ⟨h3, h4⟩ := List.mem_filter.1 hc
  have hmark : isMark c = false := by simpa using h4
  refine ⟨?_, hmark⟩
  rcases List.mem_flatten.1 h3 with ⟨sub, hsub, hcsub⟩
  rcases List.mem_map.1 hsub with ⟨c0, _, rfl⟩
  unfold nfdChar at hcsub
  rcases hlk : List.lookup c0 nfdTable with _ | v
  · rw [hlk] at hcsub
    have hcc : c = c0 := by simpa using hcsub
    subst hcc
    unfold inert
    rw [hlk]
    rfl
  · rw [hlk] at hcsub
    rcases List.lookup_eq_some_iff.1 hlk with ⟨l1, l2, heq, _⟩
    have hmem : (c0, v) ∈ nfdTable := by
      rw [heq]
      exact List.mem_append_right _ (List.mem_cons_self _ _)
    have hvals : ∀ p ∈ nfdTable, ∀ x ∈ p.2, isMark x = true ∨ inert x = true := by decide
    rcases hvals (c0, v) hmem c hcsub with hm | hi
    · rw [hm] at hmark
      exact absurd hmark (by simp)
    · exact hi

theorem toLowerChar_inert {c : Nat} (hc : inert c = true) : inert (toLowerChar c) = true := by
  unfold toLowerChar
  split_ifs with h1 h2
  · exact inert_of_lt_xC0 (by omega)
  · obtain ⟨ha, hb, hne⟩ := h2
    interval_cases c <;> first
      | decide
      | (exact absurd hc (by decide))
  · exact hc

theorem toLowerChar_not_mark {c : Nat} (h : isMark c = false) :
    isMark (toLowerChar c) = false := by
  simp only [isMark, decide_eq_false_iff_not] at h ⊢
  unfold toLowerChar
  split_ifs <;> omega

theorem toLowerChar_ws (c : Nat) : jsWs (toLowerChar c) = jsWs c := by
  unfold toLowerChar
  split_ifs with h1 h2
  · have e1 : jsWs (c + 0x20) = false := by
      simp only [jsWs, decide_eq_false_iff_not]
      omega
    have e2 : jsWs c = false := by
      simp only [jsWs, decide_eq_false_iff_not]
      omega
    rw [e1, e2]
  · have e1 : jsWs (c + 0x20) = false := by
      simp only [jsWs, decide_eq_false_iff_not]
      omega
    have e2 : jsWs c = false := by
      simp only [jsWs, decide_eq_false_iff_not]
      omega
    rw [e1, e2]
  · rfl

theorem toLowerChar_idem (c : Nat) : toLowerChar (toLowerChar c) = toLowerChar c := by
  unfold toLowerChar
  split_ifs <;> omega

theorem mem_collapseWs {l : List Nat} {x : Nat} (hx : x ∈ collapseWs l) :
    x = 0x20 ∨ (x ∈ l ∧ jsWs x = false) := by
  induction l with
  | nil => simp [collapseWs] at hx
  | cons c rest ih =>
    cases rest with
    | nil =>
      by_cases h : jsWs c = true
      · rw [show collapseWs [c] = [0x20] by simp [collapseWs, h]] at hx
        simp at hx
        exact Or.inl hx
      · rw [show collapseWs [c] = [c] by simp [collapseWs, h]] at hx
        simp at hx
        subst hx
        exact Or.inr ⟨by simp, by simpa using h⟩
    | cons d rest2 =>
      simp only [collapseWs] at hx
      by_cases hcd : (jsWs c && jsWs d) = true
      · rw [if_pos hcd] at hx
        rcases ih hx with h | ⟨hmem, hws⟩
        · exact Or.inl h
        · exact Or.inr ⟨List.mem_cons_of_mem _ hmem, hws⟩
      · rw [if_neg hcd] at hx
        rcases List.mem_cons.1 hx with rfl | hx2
        · by_cases hc : jsWs c = true
          · simp [hc]
          · simp [hc]
        · rcases ih hx2 with h | ⟨hmem, hws⟩
          · exact Or.inl h
          · exact Or.inr ⟨List.mem_cons_of_mem _ hmem, hws⟩

/-- No two adjacent whitespace code points. -/
def wsFlag (a b : Nat) : Prop := ¬(jsWs a = true ∧ jsWs b = true)

/-- The shape left behind by the whitespace-collapsing replace: every
whitespace code point is a plain space, and no two are adjacent. -/
def collapsedWs (l : List Nat) : Prop :=
  (∀ c ∈ l, jsWs c = true → c = 0x20) ∧ List.Chain' wsFlag l

theorem collapseWs_head_of_not_ws {d : Nat} {rest : List Nat} (hd : jsWs d = false) :
    (collapseWs (d :: rest)).head? = some d := by
  cases rest with
  | nil => simp [collapseWs, hd]
  | cons e rest2 => simp [collapseWs, hd]

theorem collapseWs_chain : ∀ l : List Nat, List.Chain' wsFlag (collapseWs l)
  | [] => by simp [collapseWs]
  | [c] => by by_cases h : jsWs c = true <;> simp [collapseWs, h]
  | c :: d :: rest => by
    have ih := collapseWs_chain (d :: rest)
    simp only [collapseWs]
    by_cases hcd : (jsWs c && jsWs d) = true
    · rw [if_pos hcd]
      exact ih
    · rw [if_neg hcd]
      apply List.chain'_cons'.2
      refine ⟨?_, ih⟩
      intro y hy
      by_cases hc : jsWs c = true
      · have hd : jsWs d = false := by
          cases hdw : jsWs d with
          | false => rfl
          | true =>
            exfalso
            apply hcd
            rw [hc, hdw]
            rfl
        rw [collapseWs_head_of_not_ws hd] at hy
        have hyd : d = y := by simpa using hy
        subst hyd
        simp only [if_pos hc]
        intro hfalse
        exact absurd hfalse.2 (by rw [hd]; simp)
      · simp only [if_neg hc]
        intro hfalse
        exact hc hfalse.1

theorem collapseWs_mem_spaces {l : List Nat} {c : Nat} (hc : c ∈ collapseWs l)
    (hw : jsWs c = true) : c = 0x20 := by
  rcases mem_collapseWs hc with h | ⟨_, hws⟩
  · exact h
  · rw [hw] at hws
    exact absurd hws (by simp)

theorem collapsedWs_collapseWs (l : List Nat) : collapsedWs (collapseWs l) :=
  ⟨fun _ hc hw => collapseWs_mem_spaces hc hw, collapseWs_chain l⟩

theorem mem_trimWs {l : List Nat} {x : Nat} (hx : x ∈ trimWs l) : x ∈ l := by
  unfold trimWs at hx
  rw [List.mem_reverse] at hx
  have h1 : x ∈ (l.dropWhile jsWs).reverse := List.dropWhile_subset _ hx
  rw [List.mem_reverse] at h1
  exact List.dropWhile_subset _ h1

theorem trimWs_pre (l : List Nat) : trimWs l <+: l.dropWhile jsWs := by
  unfold trimWs
  rcases List.dropWhile_suffix (l := (l.dropWhile jsWs).reverse) jsWs with ⟨u, hu⟩
  refine ⟨u.reverse, ?_⟩
  rw [← List.reverse_append, hu, List.reverse_reverse]

theorem trimWs_inf (l : List Nat) : trimWs l <:+: l :=
  List.IsInfix.trans ( List.IsPrefix.isInfix (trimWs_pre l))
    ( List.IsSuffix.isInfix (List.dropWhile_suffix jsWs))

theorem collapsedWs_trimWs {l : List Nat} (h : collapsedWs l) : collapsedWs (trimWs l) :=
  ⟨fun c hc hw => h.1 c (mem_trimWs hc) hw,  List.Chain'.infix h.2 (trimWs_inf l)⟩

theorem collapsedWs_toLowerStr {l : List Nat} (h : collapsedWs l) :
    collapsedWs (toLowerStr l) := by
  constructor
  · intro c hc hw
    rcases List.mem_map.1 hc with ⟨c2, hc2, rfl⟩
    rw [toLowerChar_ws] at hw
    have h20 : c2 = 0x20 := h.1 c2 hc2 hw
    subst h20
    decide
  · exact List.chain'_map_of_chain' toLowerChar
      (fun a b hab => by
        unfold wsFlag at hab ⊢
        rw [toLowerChar_ws, toLowerChar_ws]
        exact hab) h.2

theorem head?_dropWhile {p : Nat → Bool} {l : List Nat} {c : Nat}
    (h : (l.dropWhile p).head? = some c) : p c = false := by
  have hnot := List.head?_dropWhile_not p l
  rw [h] at hnot
  exact hnot

theorem trimWs_head {l : List Nat} {c : Nat} (hc : (trimWs l).head? = some c) :
    jsWs c = false := by
  rcases trimWs_pre l with ⟨v, hv⟩
  cases htr : trimWs l with
  | nil =>
    rw [htr] at hc
    simp at hc
  | cons a rest =>
    rw [htr] at hc
    have hac : a = c := by simpa using hc
    subst hac
    rw [htr] at hv
    have hs : (l.dropWhile jsWs).head? = some a := by
      rw [← hv]
      rfl
    exact head?_dropWhile hs

theorem trimWs_last {l : List Nat} {c : Nat} (hc : (trimWs l).getLast? = some c) :
    jsWs c = false := by
  unfold trimWs at hc
  rw [List.getLast?_reverse] at hc
  exact head?_dropWhile hc

theorem collapseWs_eq_self : ∀ {l : List Nat}, collapsedWs l → collapseWs l = l
  | [], _ => rfl
  | [c], h => by
    by_cases hc : jsWs c = true
    · have h20 : c = 0x20 := h.1 c (by simp) hc
      subst h20
      simp [collapseWs]
    · simp [collapseWs, hc]
  | c :: d :: rest, h => by
    have hch := List.chain'_cons.1 h.2
    have hcd : ¬((jsWs c && jsWs d) = true) := by
      intro hx
      rw [Bool.and_eq_true] at hx
      exact hch.1 hx
    have htail : collapsedWs (d :: rest) :=
      ⟨fun x hx hw => h.1 x (List.mem_cons_of_mem _ hx) hw, hch.2⟩
    have ih := collapseWs_eq_self htail
    simp only [collapseWs]
    rw [if_neg hcd, ih]
    congr 1
    by_cases hc : jsWs c = true
    · simp only [if_pos hc]
      exact (h.1 c (List.mem_cons_self _ _) hc).symm
    · simp only [if_neg hc]

theorem trimWs_eq_self {l : List Nat}
    (hh : ∀ c, l.head? = some c → jsWs c = false)
    (hl : ∀ c, l.getLast? = some c → jsWs c = false) :
    trimWs l = l := by
  have h1 : l.dropWhile jsWs = l := by
    cases l with
    | nil => rfl
    | cons a rest => exact List.dropWhile_cons_of_neg (by simp [hh a rfl])
  unfold trimWs
  rw [h1]
  have h2 : l.reverse.dropWhile jsWs = l.reverse := by
    cases hrev : l.reverse with
    | nil => rfl
    | cons a rest =>
      apply List.dropWhile_cons_of_neg
      have hla : l.getLast? = some a := by
        rw [← List.head?_reverse, hrev]
        rfl
      simp [hl a hla]
  rw [h2, List.reverse_reverse]

theorem nfd_of_inert : ∀ {l : List Nat}, (∀ c ∈ l, inert c = true) → nfd l = l
  | [], _ => rfl
  | c :: rest, h => by
    have ih := nfd_of_inert (fun x hx => h x (List.mem_cons_of_mem _ hx))
    unfold nfd at ih ⊢
    simp only [List.map_cons, List.flatten_cons]
    rw [nfdChar_of_inert (h c (List.mem_cons_self _ _)), ih]
    rfl

theorem removeMarks_of_no_marks {l : List Nat} (h : ∀ c ∈ l, isMark c = false) :
    removeMarks l = l :=
  List.filter_eq_self.2 (fun c hc => by simp [h c hc])

theorem normalizeBase_chars {l : List Nat} {c : Nat} (hc : c ∈ normalizeBase l) :
    inert c = true ∧ isMark c = false := by
  unfold normalizeBase toLowerStr at hc
  rcases List.mem_map.1 hc with ⟨c2, hc2, rfl⟩
  have h2 : c2 = 0x20 ∨ (c2 ∈ removeMarks (nfd l) ∧ jsWs c2 = false) :=
    mem_collapseWs (mem_trimWs hc2)
  have hfacts : inert c2 = true ∧ isMark c2 = false := by
    rcases h2 with rfl | ⟨h2, _⟩
    · exact ⟨by decide, by decide⟩
    · exact mem_removeMarks_nfd h2
  exact ⟨toLowerChar_inert hfacts.1, toLowerChar_not_mark hfacts.2⟩

theorem normalizeBase_collapsed (l : List Nat) : collapsedWs (normalizeBase l) :=
  collapsedWs_toLowerStr (collapsedWs_trimWs (collapsedWs_collapseWs _))

theorem normalizeBase_head {l : List Nat} {c : Nat}
    (hc : (normalizeBase l).head? = some c) : jsWs c = false := by
  unfold normalizeBase toLowerStr at hc
  rw [List.head?_map] at hc
  rcases ht : (trimWs (collapseWs (removeMarks (nfd l)))).head? with _ | c2
  · rw [ht] at hc
    simp at hc
  · rw [ht] at hc
    have hcc : toLowerChar c2 = c := by simpa using hc
    rw [← hcc, toLowerChar_ws]
    exact trimWs_head ht

theorem normalizeBase_last {l : List Nat} {c : Nat}
    (hc : (normalizeBase l).getLast? = some c) : jsWs c = false := by
  unfold normalizeBase toLowerStr at hc
  rw [List.getLast?_map] at hc
  rcases ht : (trimWs (collapseWs (removeMarks (nfd l)))).getLast? with _ | c2
  · rw [ht] at hc
    simp at hc
  · rw [ht] at hc
    have hcc : toLowerChar c2 = c := by simpa using hc
    rw [← hcc, toLowerChar_ws]
    exact trimWs_last ht

theorem toLowerStr_normalizeBase (l : List Nat) :
    toLowerStr (normalizeBase l) = normalizeBase l := by
  unfold normalizeBase toLowerStr
  rw [List.map_map]
  exact List.map_congr_left (fun a _ => toLowerChar_idem a)

/-- C4: `normalize` with default flags (strict and colour-stripping both
off) is idempotent: `normalize(normalize(s)) = normalize(s)`. -/
theorem normalize_idempotent (l : List Nat) : normalize (normalize l) = normalize l := by
  show normalizeBase (normalizeBase l) = normalizeBase l
  have hchars := fun c hc => normalizeBase_chars (l := l) (c := c) hc
  have hnfd : nfd (normalizeBase l) = normalizeBase l :=
    nfd_of_inert (fun c hc => (hchars c hc).1)
  have hrm : removeMarks (normalizeBase l) = normalizeBase l :=
    removeMarks_of_no_marks (fun c hc => (hchars c hc).2)
  have hcoll : collapseWs (normalizeBase l) = normalizeBase l :=
    collapseWs_eq_self (normalizeBase_collapsed l)
  have htrim : trimWs (normalizeBase l) = normalizeBase l :=
    trimWs_eq_self (fun c hc => normalizeBase_head hc) (fun c hc => normalizeBase_last hc)
  conv_lhs => rw [normalizeBase]
  rw [hnfd, hrm, hcoll, htrim]
  exact toLowerStr_normalizeBase l

end StringUtils
